import Mathlib

/-!
Verification of the Asantials storefront client logic.

The development shallowly embeds the client-side logic of the storefront:
the search normalisation and token matching of SearchOverlay.jsx and
SearchPage.jsx, the suggestion ranking of buildSuggestions, the
filter/sort pipeline of AllProductsPage.jsx, the cart drawer mutations and
checkout line building of CartDrawer.jsx, and the routing table of App.jsx.

JavaScript strings are modelled as lists of characters.  The browser
supplied steps of normalizeSearchText (toLowerCase, Unicode NFD
decomposition, stripping of combining marks) are modelled as an abstract
per-character function fold : Char → List Char; everything after those
steps (the replacement of non-alphanumeric runs by single spaces and the
trim) is embedded concretely.  JavaScript numbers that carry prices or
quantities are modelled as rationals, with Option ℚ where NaN or an
absent value is observable.  Truthiness coercions of the source are made
explicit at each site (an absent variants list is falsy, an empty string
is falsy, a non-empty string is truthy).
-/

abbrev Str := List Char

/-- Characters kept by the regex replace of normalizeSearchText: the
normalised text is matched against the character class a-z, 0-9; every
other character opens or extends a separator run. -/
def isAlnum (c : Char) : Bool :=
  (decide ('a' ≤ c) && decide (c ≤ 'z')) || (decide ('0' ≤ c) && decide (c ≤ '9'))

/-- One pass of the replace of a run of non-alphanumerics by a single
space: the Boolean records whether the previous character already opened
a separator run. -/
def replaceRunsAux : Bool → Str → Str
  | _, [] => []
  | prevSep, c :: rest =>
    if isAlnum c then c :: replaceRunsAux false rest
    else if prevSep then replaceRunsAux true rest
    else ' ' :: replaceRunsAux true rest

def replaceRuns (s : Str) : Str := replaceRunsAux false s

/-- The trim() of the source: after replaceRuns the only whitespace left
is the space character, so trimming removes leading and trailing spaces. -/
def trimSpace (s : Str) : Str :=
  ((s.dropWhile (fun c => c = ' ')).reverse.dropWhile (fun c => c = ' ')).reverse

/-- normalizeSearchText of SearchOverlay.jsx and SearchPage.jsx.  The
argument fold stands for the composition of toLowerCase, normalize(NFD)
and the removal of combining marks, applied character by character; the
replacement of non-alphanumeric runs by single spaces and the final trim
are embedded concretely. -/
def normalizeSearchText (fold : Char → List Char) (s : Str) : Str :=
  trimSpace (replaceRuns (s.flatMap fold))

/-- split(" ") of JavaScript: splitting on every single space, keeping
empty pieces (they are dropped afterwards by filter(Boolean)). -/
def jsSplitSpace : Str → List Str
  | [] => [[]]
  | c :: t =>
    if c = ' ' then [] :: jsSplitSpace t
    else
      match jsSplitSpace t with
      | [] => [[c]]
      | w :: ws => (c :: w) :: ws

/-- The token list of a query: normalizeSearchText, then split(" "), then
filter(Boolean), which drops exactly the empty pieces. -/
def tokensOf (fold : Char → List Char) (q : Str) : List Str :=
  (jsSplitSpace (normalizeSearchText fold q)).filter (fun t => !t.isEmpty)

/-- String.prototype.includes: the needle occurs contiguously in the
haystack. -/
def hasSub (needle : Str) : Str → Bool
  | [] => needle.isEmpty
  | c :: t => needle.isPrefixOf (c :: t) || hasSub needle t

structure VariantOption where
  value : Option Str
deriving DecidableEq

structure Variant where
  title : Option Str
  sku : Option Str
  selectedOptions : List VariantOption
  availableForSale : Bool
deriving DecidableEq

structure ProductOption where
  name : Option Str
  values : List Str
deriving DecidableEq

structure Collection where
  title : Option Str
  handle : Option Str
deriving DecidableEq

structure Product where
  title : Option Str
  handle : Option Str
  vendor : Option Str
  productType : Option Str
  description : Option Str
  tags : List Str
  options : List ProductOption
  variants : Option (List Variant)
  collections : List Collection
  price : Option ℚ
deriving DecidableEq

/-- The push helper of buildSearchableText: null, undefined and the empty
string are skipped, every other value is appended. -/
def pushOpt (acc : List Str) (v : Option Str) : List Str :=
  match v with
  | none => acc
  | some s => if s.isEmpty then acc else acc ++ [s]

def pushStr (acc : List Str) (s : Str) : List Str :=
  if s.isEmpty then acc else acc ++ [s]

/-- The parts collected by buildSearchableText, in source order: title,
handle, vendor, productType, description, tags, option names and values,
variant titles, skus and selected option values, collection titles and
handles.  Absent list fields are read through the nullish default [] of
the source. -/
def searchableParts (p : Product) : List Str :=
  let a5 := pushOpt (pushOpt (pushOpt (pushOpt (pushOpt [] p.title) p.handle) p.vendor)
    p.productType) p.description
  let a6 := p.tags.foldl pushStr a5
  let a7 := p.options.foldl (fun acc o => o.values.foldl pushStr (pushOpt acc o.name)) a6
  let a8 := (p.variants.getD []).foldl
    (fun acc v => v.selectedOptions.foldl (fun acc2 so => pushOpt acc2 so.value)
      (pushOpt (pushOpt acc v.title) v.sku)) a7
  p.collections.foldl (fun acc c => pushOpt (pushOpt acc c.title) c.handle) a8

def joinSpace (parts : List Str) : Str := List.intercalate [' '] parts

/-- buildSearchableText: the parts joined with spaces and normalised. -/
def buildSearchableText (fold : Char → List Char) (p : Product) : Str :=
  normalizeSearchText fold (joinSpace (searchableParts p))

/-- The match predicate shared by the overlay and the search page: every
token of the query occurs as a substring of the searchable text. -/
def matchesTokens (fold : Char → List Char) (tokens : List Str) (p : Product) : Bool :=
  tokens.all (fun t => hasSub t (buildSearchableText fold p))

/-- The product results of SearchPage.jsx before the card mapping: an
empty or token-free query yields no results, otherwise the catalog is
filtered by matchesTokens. -/
def searchMatches (fold : Char → List Char) (ps : List Product) (q : Str) : List Product :=
  let tokens := tokensOf fold q
  if tokens.isEmpty then [] else ps.filter (matchesTokens fold tokens)

structure Card where
  title : Option Str
  href : Str
deriving DecidableEq

/-- The card built by the overlay for a matching product.  An absent
handle is interpolated by JavaScript as the text undefined, so href is
never the empty string. -/
def toCardOverlay (p : Product) : Card :=
  ⟨p.title, "/product/".toList ++ (match p.handle with | some h => h | none => "undefined".toList)⟩

/-- The local-index result list of the SearchOverlay effect for a
non-empty query: the matching products mapped to cards, cards with a
falsy href dropped, and the list cut to the first 6 entries. -/
def overlayResults (fold : Char → List Char) (ps : List Product) (q : Str) : List Card :=
  let tokens := tokensOf fold q
  if tokens.isEmpty then []
  else (((ps.filter (matchesTokens fold tokens)).map toCardOverlay).filter
    (fun c => !c.href.isEmpty)).take 6

/-! Suggestion ranking of buildSuggestions (SearchOverlay.jsx, SearchPage.jsx). -/

structure Cand where
  label : Str
  normalized : Str
deriving DecidableEq

structure SCand where
  label : Str
  normalized : Str
  score : Nat
deriving DecidableEq

/-- The candidate list of buildSuggestions: one entry per product whose
title is truthy (present and non-empty), carrying the title and its
normalised form. -/
def buildCandidates (fold : Char → List Char) (ps : List Product) : List Cand :=
  ps.filterMap (fun p =>
    match p.title with
    | none => none
    | some t => if t.isEmpty then none else some ⟨t, normalizeSearchText fold t⟩)

/-- The weighted score of a candidate against the normalised query: 100
for an exact match, plus 50 for a prefix match, plus 20 for a substring
match.  The truthiness guards of the source are the identity here because
this branch only runs for a non-empty normalised query. -/
def scoreOf (qn n : Str) : Nat :=
  (if n = qn then 100 else 0) + (if qn.isPrefixOf n then 50 else 0) +
    (if hasSub qn n then 20 else 0)

def scoreCands (qn : Str) (cs : List Cand) : List SCand :=
  cs.map (fun c => ⟨c.label, c.normalized, scoreOf qn c.normalized⟩)

/-- The sort comparator of buildSuggestions: descending score, ties broken
by ascending label length.  Array.prototype.sort is stable, modelled by a
stable merge sort on the non-strict comparison induced by the comparator. -/
def sortScored (l : List SCand) : List SCand :=
  l.mergeSort (fun a b =>
    decide (b.score < a.score ∨ (a.score = b.score ∧ a.label.length ≤ b.label.length)))

/-- The output loop of buildSuggestions: skip entries with a falsy or
already seen normalised form, push the label, and stop once the output
has reached the limit (the length test runs after the push). -/
def suggestLoop (limit : Nat) : List Str → Nat → List Cand → List Str
  | _, _, [] => []
  | seen, count, c :: rest =>
    if c.normalized.isEmpty || seen.contains c.normalized then
      suggestLoop limit seen count rest
    else if limit ≤ count + 1 then [c.label]
    else c.label :: suggestLoop limit (c.normalized :: seen) (count + 1) rest

/-- The scored branch of buildSuggestions: the candidates containing
every token of the query are scored against the normalised query and
sorted by the comparator (the score is dropped again before the output
loop, which reads only label and normalised form). -/
def suggestPipeline (fold : Char → List Char) (ps : List Product) (q : Str) : List Cand :=
  (sortScored (scoreCands (normalizeSearchText fold q)
    ((buildCandidates fold ps).filter (fun c =>
      if (tokensOf fold q).isEmpty then true
      else (tokensOf fold q).all (fun t => hasSub t c.normalized))))).map
    (fun s => ⟨s.label, s.normalized⟩)

/-- buildSuggestions: candidates from titles; with an empty normalised
query the dedup/limit loop runs over the unscored candidates in catalog
order, otherwise it runs over the scored and sorted pipeline. -/
def buildSuggestions (fold : Char → List Char) (ps : List Product) (q : Str)
    (limit : Nat) : List Str :=
  if (normalizeSearchText fold q).isEmpty then
    suggestLoop limit [] 0 (buildCandidates fold ps)
  else suggestLoop limit [] 0 (suggestPipeline fold ps q)

/-! Filter and sort pipeline of AllProductsPage.jsx. -/

/-- The sortOptions array of AllProductsPage.jsx: value and label pairs. -/
def sortOptions : List (String × String) :=
  [("featured", "Featured"),
   ("price-asc", "Price, Low to High"),
   ("price-desc", "Price, High to Low"),
   ("title-asc", "Alphabetical, A-Z"),
   ("title-desc", "Alphabetical, Z-A")]

/-- a.price ?? 0 of the comparators. -/
def priceD (p : Product) : ℚ := p.price.getD 0

/-- The comparator selected by compareFns[sortBy] ?? compareFns.featured.
The argument lc stands for the browser-supplied localeCompare on titles.
The featured comparator returns 0, and an unknown key falls back to it. -/
def comparatorFor (lc : Option Str → Option Str → Int) (key : String) (a b : Product) : ℚ :=
  if key = "price-asc" then priceD a - priceD b
  else if key = "price-desc" then priceD b - priceD a
  else if key = "title-asc" then (lc a.title b.title : ℚ)
  else if key = "title-desc" then (lc b.title a.title : ℚ)
  else 0

/-- slice().sort(comparator) of the source: a stable sort keeping a pair
in order whenever the comparator is non-positive. -/
def sortProducts (lc : Option Str → Option Str → Int) (key : String)
    (ps : List Product) : List Product :=
  ps.mergeSort (fun a b => decide (comparatorFor lc key a b ≤ 0))

/-- product.variants?.some(v => v.availableForSale): an absent variants
list is falsy. -/
def productInStock (p : Product) : Bool :=
  match p.variants with
  | none => false
  | some vs => vs.any (fun v => v.availableForSale)

/-- matchesAvailability of AllProductsPage.jsx.  For out-of-stock the
source evaluates product.variants?.every(v => !v.availableForSale), which
is undefined (falsy) when the variants list is absent. -/
def matchesAvailability (filt : String) (p : Product) : Bool :=
  if filt = "all" then true
  else if filt = "in-stock" then productInStock p
  else if filt = "out-of-stock" then
    match p.variants with
    | none => false
    | some vs => vs.all (fun v => !v.availableForSale)
  else true

/-- matchesSize of AllProductsPage.jsx.  The arguments norm and extract
stand for normaliseTokenValue and extractOptionValues(product, "size") of
lib/shopify, which are outside the given sources; matchesSize only applies
them pointwise. -/
def matchesSize (norm : Str → Str) (extract : Product → List Str)
    (selected : List Str) (p : Product) : Bool :=
  let selectedTokens := selected.map norm
  if selectedTokens.isEmpty then true
  else
    let productSizes := (extract p).map norm
    if productSizes.isEmpty then false
    else selectedTokens.any (fun t => productSizes.contains t)

/-- The filter stage of filteredAndSortedProducts. -/
def filterPipeline (norm : Str → Str) (extract : Product → List Str)
    (selected : List Str) (filt : String) (ps : List Product) : List Product :=
  ps.filter (fun p => matchesSize norm extract selected p && matchesAvailability filt p)

/-- availabilityCounts of AllProductsPage.jsx: each product increments
the in-stock counter when some variant is available for sale and the
out-of-stock counter otherwise. -/
def availabilityCounts (ps : List Product) : Nat × Nat :=
  (ps.countP productInStock, ps.countP (fun p => !productInStock p))

/-! Cart line items and the mutations issued by CartDrawer.jsx. -/

/-- Modelled from the spec: the cart context (src/contexts/cart-context)
is not among the given sources.  The spec states that the context
maintains a local cart of line items keyed by handle+size, so the state
is a list of lines carrying handle (slug), size and quantity, and each
mutation addresses the lines whose (slug, size) pair equals the pair it
was called with; a call that omits the size (as the drawer does when a
product fetch fails) addresses the pair with a null size. -/
structure CartLine where
  slug : Str
  size : Option Str
  quantity : Int
deriving DecidableEq

/-- Modelled from the spec: updateQuantity(slug, size, qty) rewrites the
quantity of the lines keyed by (slug, size) and leaves every other line
unchanged. -/
def updateQuantity (slug : Str) (size : Option Str) (qty : Int)
    (st : List CartLine) : List CartLine :=
  st.map (fun l => if l.slug = slug ∧ l.size = size then ⟨l.slug, l.size, qty⟩ else l)

/-- Modelled from the spec: removeItem(slug, size) drops exactly the lines
keyed by (slug, size). -/
def removeItem (slug : Str) (size : Option Str) (st : List CartLine) : List CartLine :=
  st.filter (fun l => !(decide (l.slug = slug ∧ l.size = size)))

/-! Collection product cache of AllProductsPage.jsx. -/

/-- One activation of a collection handle in AllProductsPage.jsx: when the
handle is "all" or the map already stores the handle, nothing is fetched;
otherwise ensureCollectionProducts is issued and a truthy result is
stored under the handle on top of the previous entries.  The Boolean
reports whether a fetch was issued. -/
def activateCollection (st : List (String × List Product)) (handle : String)
    (fetched : Option (List Product)) : List (String × List Product) × Bool :=
  if handle = "all" ∨ (st.lookup handle).isSome then (st, false)
  else
    match fetched with
    | some ps => ((handle, ps) :: st, true)
    | none => (st, true)

/-- A session: the sequence of collection activations with the products
each fetch would return. -/
def runSession (st : List (String × List Product)) :
    List (String × Option (List Product)) → List (String × List Product)
  | [] => st
  | (h, f) :: rest => runSession (activateCollection st h f).1 rest

/-! Routing table of App.jsx. -/

inductive Page where
  | home
  | listing (category : String)
  | productDetail (slug : String)
  | cartView
  | searchView
  | redirectTo (path : String)
deriving DecidableEq

/-- The route table of App.jsx, on the segments of the URL path: the index
route, the products listing and the shoes family, the apparel redirect,
product detail, cart, search, the bare product redirect and the catch-all
redirect to the home page. -/
def routeFor : List String → Page
  | [] => .home
  | ["products"] => .listing "all"
  | ["shoes"] => .listing "shoes"
  | ["shoes", "loafers"] => .listing "loafers"
  | ["shoes", "boots"] => .listing "boots"
  | ["shoes", "sneakers"] => .listing "sneakers"
  | ["shoes", "sandals"] => .listing "sandals"
  | ["apparel"] => .redirectTo "/products?category=t-shirts"
  | ["product", slug] => .productDetail slug
  | ["cart"] => .cartView
  | ["search"] => .searchView
  | ["product"] => .redirectTo "/"
  | _ => .redirectTo "/"

/-! Checkout line building of handleCheckout (CartDrawer.jsx). -/

/-- One cart item as seen by handleCheckout: the handle, the chosen size,
the resolved product (none while the product is still loading, which is
exactly the loading flag of cartItems), and the quantity as a JavaScript
number (none models a value that is not finite). -/
structure CheckItem where
  handle : Str
  size : Option Str
  product : Option Product
  quantity : Option ℚ
deriving DecidableEq

structure CheckLine where
  merchandiseId : Str
  quantity : Int
deriving DecidableEq

inductive CheckoutOutcome where
  | fetchFailure (handles : List Str)
  | unresolved (handles : List Str)
  | emptyLines
  | created (lines : List CheckLine)
deriving DecidableEq

/-- The line-building loop of handleCheckout.  The argument resolve stands
for findVariantForSize(product, size)?.id of lib/shopify, which is outside
the given sources.  A loading item, an item whose handle misses from the
product map or whose variant does not resolve is recorded as missing; an
item whose quantity is not finite or below 1 is dropped; otherwise the
quantity is floored and capped at 99. -/
def buildLines (resolve : Product → Option Str → Option Str)
    (pmap : List (Str × Product)) : List CheckItem → List Str × List CheckLine
  | [] => ([], [])
  | it :: rest =>
    let r := buildLines resolve pmap rest
    match it.product with
    | none => (it.handle :: r.1, r.2)
    | some _ =>
      match pmap.lookup it.handle with
      | none => (it.handle :: r.1, r.2)
      | some p =>
        match resolve p it.size with
        | none => (it.handle :: r.1, r.2)
        | some vid =>
          match it.quantity with
          | none => r
          | some q => if q < 1 then r else (r.1, ⟨vid, min ⌊q⌋ 99⟩ :: r.2)

/-- The product map seeded from the ready items of the drawer (Map.set
keyed by handle, a later set for the same handle winning). -/
def seedMap (items : List CheckItem) : List (Str × Product) :=
  items.foldl
    (fun m it => match it.product with | some p => (it.handle, p) :: m | none => m) []

/-- The deduplicated truthy cart handles (cartHandles of the drawer). -/
def cartHandlesOf (items : List CheckItem) : List Str :=
  ((items.map (fun it => it.handle)).filter (fun h => !h.isEmpty)).dedup

/-- The handles handleCheckout still has to fetch. -/
def handlesToFetch (items : List CheckItem) : List Str :=
  (cartHandlesOf items).filter (fun h => ((seedMap items).lookup h).isNone)

/-- The handles whose fetch fails (returns no product or throws). -/
def fetchErrorsOf (fetch : Str → Option Product) (items : List CheckItem) : List Str :=
  (handlesToFetch items).filter (fun h => (fetch h).isNone)

/-- The product map after the checkout fetches. -/
def checkoutMap (fetch : Str → Option Product) (items : List CheckItem) :
    List (Str × Product) :=
  (handlesToFetch items).foldl
    (fun m h => match fetch h with | some p => (h, p) :: m | none => m) (seedMap items)

/-- handleCheckout up to the cartCreate call: a failed fetch aborts with
an error, then the lines are built; any missing product or variant aborts
with an error, an empty line list aborts with an error, and only
otherwise is cartCreate reached with the built lines. -/
def checkoutPlan (resolve : Product → Option Str → Option Str)
    (fetch : Str → Option Product) (items : List CheckItem) : CheckoutOutcome :=
  if !(fetchErrorsOf fetch items).isEmpty then .fetchFailure (fetchErrorsOf fetch items)
  else if !(buildLines resolve (checkoutMap fetch items) items).1.isEmpty then
    .unresolved (buildLines resolve (checkoutMap fetch items) items).1
  else if (buildLines resolve (checkoutMap fetch items) items).2.isEmpty then .emptyLines
  else .created (buildLines resolve (checkoutMap fetch items) items).2

/-! Concrete inputs used by witnesses and counterexamples. -/

def demoFold : Char → List Char := fun c => [c.toLower]

def mkTitledProduct (t h : Str) : Product :=
  ⟨some t, some h, none, none, none, [], [], none, [], none⟩

def demoProducts : List Product :=
  ["abca", "abcb", "abcc", "abcd", "abce", "abcf", "abcg"].map
    (fun s => mkTitledProduct s.toList s.toList)

def demoQuery : Str := "abc".toList

def demoLastProduct : Product := mkTitledProduct "abcg".toList "abcg".toList

def ghostProduct : Product :=
  ⟨some "ghost".toList, some "ghost".toList, none, none, none, [], [], none, [], none⟩

def zeroLC : Option Str → Option Str → Int := fun _ _ => 0

def demoCartLine : CartLine := ⟨"tee".toList, some "m".toList, 2⟩

def demoCache : List (String × List Product) := [("shoes", [ghostProduct])]

def demoResolve : Product → Option Str → Option Str := fun _ _ => some "vid".toList

def demoFetch : Str → Option Product := fun _ => none

def badItem : CheckItem := ⟨"tee".toList, none, none, some 1⟩

/-! Substring characterisations. -/

/-- isPrefixOf decides the equational form of being a prefix. -/
theorem isPrefixOf_eq_append (n h : Str) : n.isPrefixOf h = true ↔ ∃ r, h = n ++ r := by
  rw [List.isPrefixOf_iff_prefix]
  constructor
  · rintro ⟨r, rfl⟩; exact ⟨r, rfl⟩
  · rintro ⟨r, rfl⟩; exact ⟨r, rfl⟩

/-- hasSub decides contiguous substring occurrence. -/
theorem hasSub_iff_append (n h : Str) : hasSub n h = true ↔ ∃ l r, h = l ++ n ++ r := by
  induction h with
  | nil =>
    simp only [hasSub, List.isEmpty_iff]
    constructor
    · rintro rfl; exact ⟨[], [], rfl⟩
    · rintro ⟨l, r, heq⟩
      rcases List.append_eq_nil.mp (List.append_eq_nil.mp heq.symm).1 with ⟨-, h2⟩
      exact h2
  | cons c t ih =>
    simp only [hasSub, Bool.or_eq_true, ih, isPrefixOf_eq_append]
    constructor
    · rintro (⟨r, heq⟩ | ⟨l, r, heq⟩)
      · exact ⟨[], r, by simpa using heq⟩
      · exact ⟨c :: l, r, by simp [heq]⟩
    · rintro ⟨l, r, heq⟩
      cases l with
      | nil => exact Or.inl ⟨r, by simpa using heq⟩
      | cons x xs =>
        rw [List.cons_append, List.cons_append, List.cons_eq_cons] at heq
        exact Or.inr ⟨xs, r, by simp [heq.2]⟩

/-- The card href always starts with the path prefix, so it is truthy. -/
theorem toCardOverlay_href_ne_nil (p : Product) : (toCardOverlay p).href ≠ [] := by
  have h9 : "/product/".toList ≠ [] := by decide
  intro h
  simp only [toCardOverlay] at h
  cases hp : p.handle <;> rw [hp] at h <;> exact h9 (List.append_eq_nil.mp h).1

/-- Claim C1 (counterexample): with seven products whose searchable texts
all contain the query token, the overlay result list is cut to 6 cards,
so the last matching product is excluded from the results even though
every token of the query occurs in its searchable text. -/
theorem overlay_slice_counterexample :
    demoLastProduct ∈ demoProducts
    ∧ matchesTokens demoFold (tokensOf demoFold demoQuery) demoLastProduct = true
    ∧ toCardOverlay demoLastProduct ∉ overlayResults demoFold demoProducts demoQuery := by
  decide

/-- Claim C1 (amended): for a query with at least one token, a product is
kept by the token-matching stage exactly when every token of the
normalised query occurs as a substring of its normalised searchable text;
the search page returns all matching products, while the overlay shows
only the first 6 matching cards. -/
theorem search_results_token_matching (fold : Char → List Char) (ps : List Product)
    (q : Str) (htok : tokensOf fold q ≠ []) :
    (∀ p, p ∈ searchMatches fold ps q ↔
      p ∈ ps ∧ ∀ t ∈ tokensOf fold q, ∃ l r, buildSearchableText fold p = l ++ t ++ r)
    ∧ searchMatches fold ps q = ps.filter (matchesTokens fold (tokensOf fold q))
    ∧ overlayResults fold ps q
        = ((ps.filter (matchesTokens fold (tokensOf fold q))).map toCardOverlay).take 6 := by
  have hne : ¬ ((tokensOf fold q).isEmpty = true) := by
    simpa [List.isEmpty_iff] using htok
  have h1 : searchMatches fold ps q = ps.filter (matchesTokens fold (tokensOf fold q)) := by
    unfold searchMatches
    rw [if_neg hne]
  refine ⟨?_, h1, ?_⟩
  · intro p
    rw [h1, List.mem_filter]
    simp [matchesTokens, List.all_eq_true, hasSub_iff_append]
  · unfold overlayResults
    rw [if_neg hne]
    have hfilter :
        ((ps.filter (matchesTokens fold (tokensOf fold q))).map toCardOverlay).filter
          (fun c => !c.href.isEmpty)
        = (ps.filter (matchesTokens fold (tokensOf fold q))).map toCardOverlay := by
      apply List.filter_eq_self.mpr
      intro c hc
      rcases List.mem_map.mp hc with ⟨p, -, rfl⟩
      simpa [List.isEmpty_iff] using toCardOverlay_href_ne_nil p
    rw [hfilter]

theorem search_results_token_matching_witness :
    tokensOf demoFold demoQuery ≠ []
    ∧ searchMatches demoFold demoProducts demoQuery
        = demoProducts.filter (matchesTokens demoFold (tokensOf demoFold demoQuery)) :=
  ⟨by decide, (search_results_token_matching demoFold demoProducts demoQuery (by decide)).2.1⟩

/-- Claim C4 (counterexample): a product without a variants list is kept
by neither availability mode: with the filter set to out-of-stock the
pipeline drops it even though every variant it has (vacuously) is
unavailable for sale. -/
theorem availability_no_variants_counterexample :
    filterPipeline id (fun _ => []) [] "out-of-stock" [ghostProduct] = []
    ∧ (∀ v ∈ ghostProduct.variants.getD [], v.availableForSale = false) := by
  decide

/-- Claim C4 (amended): with an empty size selection the pipeline under
"all" keeps every product, under "in-stock" keeps exactly the products
with a variants list containing an available variant, and under
"out-of-stock" keeps exactly the products with a variants list all of
whose variants are unavailable; a product without a variants list is
excluded under both non-trivial modes. -/
theorem availability_filter_characterisation (norm : Str → Str)
    (extract : Product → List Str) (ps : List Product) (p : Product) :
    (p ∈ filterPipeline norm extract [] "all" ps ↔ p ∈ ps)
    ∧ (p ∈ filterPipeline norm extract [] "in-stock" ps ↔
        p ∈ ps ∧ ∃ vs, p.variants = some vs ∧ ∃ v ∈ vs, v.availableForSale = true)
    ∧ (p ∈ filterPipeline norm extract [] "out-of-stock" ps ↔
        p ∈ ps ∧ ∃ vs, p.variants = some vs ∧ ∀ v ∈ vs, v.availableForSale = false)
    ∧ (p.variants = none →
        matchesAvailability "in-stock" p = false
        ∧ matchesAvailability "out-of-stock" p = false) := by
  have hsize : ∀ x : Product, matchesSize norm extract [] x = true := fun _ => rfl
  refine ⟨?_, ?_, ?_, ?_⟩
  · simp [filterPipeline, List.mem_filter, hsize, matchesAvailability]
  · rw [filterPipeline, List.mem_filter]
    cases hv : p.variants with
    | none => simp [hsize, matchesAvailability, productInStock, hv]
    | some vs =>
      simp [hsize, matchesAvailability, productInStock, hv, List.any_eq_true]
  · rw [filterPipeline, List.mem_filter]
    cases hv : p.variants with
    | none => simp [hsize, matchesAvailability, hv]
    | some vs =>
      simp [hsize, matchesAvailability, hv, List.all_eq_true]
  · intro hv
    constructor <;> simp [matchesAvailability, productInStock, hv]

theorem availability_filter_characterisation_witness :
    ghostProduct.variants = none
    ∧ matchesAvailability "in-stock" ghostProduct = false
    ∧ matchesAvailability "out-of-stock" ghostProduct = false :=
  ⟨rfl, (availability_filter_characterisation id (fun _ => []) [ghostProduct]
    ghostProduct).2.2.2 rfl⟩

/-- Claim C5: with no size selected every product passes; with a
non-empty selection a product passes exactly when some normalised
selected size occurs among its normalised size option values, and a
product without size values is always excluded. -/
theorem size_filter_characterisation (norm : Str → Str) (extract : Product → List Str)
    (selected : List Str) (p : Product) :
    (selected = [] → matchesSize norm extract selected p = true)
    ∧ (selected ≠ [] →
        (matchesSize norm extract selected p = true ↔
          ∃ t ∈ selected.map norm, t ∈ (extract p).map norm))
    ∧ (selected ≠ [] → extract p = [] → matchesSize norm extract selected p = false) := by
  refine ⟨?_, ?_, ?_⟩
  · rintro rfl; rfl
  · intro hsel
    have h1 : ¬ ((selected.map norm).isEmpty = true) := by
      simpa [List.isEmpty_iff] using hsel
    rw [matchesSize]
    rw [if_neg h1]
    by_cases h2 : ((extract p).map norm).isEmpty = true
    · rw [if_pos h2]
      rw [List.isEmpty_iff] at h2
      simp [h2]
    · rw [if_neg h2]
      simp [List.any_eq_true]
  · intro hsel hex
    have h1 : ¬ ((selected.map norm).isEmpty = true) := by
      simpa [List.isEmpty_iff] using hsel
    rw [matchesSize]
    rw [if_neg h1]
    rw [if_pos (by simp [hex])]

theorem size_filter_characterisation_witness :
    (["m".toList] : List Str) ≠ []
    ∧ (matchesSize id (fun _ => ["m".toList]) ["m".toList] demoLastProduct = true ↔
        ∃ t ∈ (["m".toList] : List Str).map id, t ∈ (["m".toList] : List Str).map id) :=
  ⟨by decide, (size_filter_characterisation id (fun _ => ["m".toList]) ["m".toList]
    demoLastProduct).2.1 (by decide)⟩

/-- Claim C10: the availability counts partition the active product list:
the in-stock and out-of-stock counters sum to the length, every product
feeds exactly one of the two counters, and a product without a variants
list feeds the out-of-stock counter. -/
theorem availability_counts_partition (ps : List Product) :
    (availabilityCounts ps).1 + (availabilityCounts ps).2 = ps.length
    ∧ (∀ p ∈ ps, (productInStock p = true ↔ ¬ ((!productInStock p) = true)))
    ∧ (∀ p ∈ ps, p.variants = none → (!productInStock p) = true) := by
  refine ⟨?_, ?_, ?_⟩
  · have h := List.length_eq_countP_add_countP productInStock ps
    have he : (fun a => decide (¬ productInStock a = true)) = (fun p => !productInStock p) := by
      funext a; cases hx : productInStock a <;> simp [hx]
    rw [he] at h
    simpa [availabilityCounts] using h.symm
  · intro p _
    cases hx : productInStock p <;> simp [hx]
  · intro p _ hv
    simp [productInStock, hv]

theorem availability_counts_partition_witness :
    ghostProduct ∈ [ghostProduct]
    ∧ (productInStock ghostProduct = true ↔ ¬ ((!productInStock ghostProduct) = true)) :=
  ⟨by decide, (availability_counts_partition [ghostProduct]).2.1 ghostProduct (by decide)⟩

/-- A comparator that always ties makes every pair sorted. -/
theorem pairwise_of_le_true (le : Product → Product → Bool)
    (h : ∀ a b, le a b = true) : ∀ l : List Product,
    List.Pairwise (fun a b => le a b = true) l
  | [] => .nil
  | a :: t => .cons (fun b _ => h a b) (pairwise_of_le_true le h t)

/-- Claim C3: the listing offers exactly 5 sort comparators; price-asc and
price-desc return permutations sorted by price (missing prices read as 0)
nondecreasing respectively nonincreasing; title-asc and title-desc return
permutations sorted by the locale comparison in ascending respectively
descending direction, for any total and transitive localeCompare;
featured returns the list unchanged, and an unknown sort key behaves like
featured. -/
theorem sort_pipeline_correct (lc : Option Str → Option Str → Int)
    (hto : ∀ x y, lc x y ≤ 0 ∨ lc y x ≤ 0)
    (htr : ∀ x y z, lc x y ≤ 0 → lc y z ≤ 0 → lc x z ≤ 0)
    (ps : List Product) (key : String) :
    sortOptions.length = 5
    ∧ ((sortProducts lc "price-asc" ps).Perm ps
        ∧ List.Pairwise (fun a b => priceD a ≤ priceD b) (sortProducts lc "price-asc" ps))
    ∧ ((sortProducts lc "price-desc" ps).Perm ps
        ∧ List.Pairwise (fun a b => priceD b ≤ priceD a) (sortProducts lc "price-desc" ps))
    ∧ ((sortProducts lc "title-asc" ps).Perm ps
        ∧ List.Pairwise (fun a b => lc a.title b.title ≤ 0) (sortProducts lc "title-asc" ps))
    ∧ ((sortProducts lc "title-desc" ps).Perm ps
        ∧ List.Pairwise (fun a b => lc b.title a.title ≤ 0) (sortProducts lc "title-desc" ps))
    ∧ sortProducts lc "featured" ps = ps
    ∧ (key ∉ sortOptions.map Prod.fst →
        sortProducts lc key ps = sortProducts lc "featured" ps) := by
  have hperm : ∀ k, (sortProducts lc k ps).Perm ps := fun k => List.mergeSort_perm ps _
  have hasc : ∀ a b, comparatorFor lc "price-asc" a b = priceD a - priceD b := fun _ _ => rfl
  have hdesc : ∀ a b, comparatorFor lc "price-desc" a b = priceD b - priceD a := fun _ _ => rfl
  have htasc : ∀ a b, comparatorFor lc "title-asc" a b = (lc a.title b.title : ℚ) :=
    fun _ _ => rfl
  have htdesc : ∀ a b, comparatorFor lc "title-desc" a b = (lc b.title a.title : ℚ) :=
    fun _ _ => rfl
  have hfeat : ∀ a b, comparatorFor lc "featured" a b = 0 := fun _ _ => rfl
  have hint : ∀ m n : Int, ((m : ℚ) ≤ (n : ℚ)) ↔ m ≤ n := fun m n => Int.cast_le
  refine ⟨rfl, ⟨hperm _, ?_⟩, ⟨hperm _, ?_⟩, ⟨hperm _, ?_⟩, ⟨hperm _, ?_⟩, ?_, ?_⟩
  · have hs := @List.sorted_mergeSort _
      (fun a b => decide (comparatorFor lc "price-asc" a b ≤ 0))
      (fun a b c h1 h2 => by
        rw [decide_eq_true_eq, hasc] at *
        linarith)
      (fun a b => by
        rw [Bool.or_eq_true, decide_eq_true_eq, decide_eq_true_eq, hasc, hasc]
        rcases le_total (priceD a) (priceD b) with h | h
        · exact Or.inl (by linarith)
        · exact Or.inr (by linarith)) ps
    refine hs.imp ?_
    intro a b h
    rw [decide_eq_true_eq, hasc] at h
    linarith
  · have hs := @List.sorted_mergeSort _
      (fun a b => decide (comparatorFor lc "price-desc" a b ≤ 0))
      (fun a b c h1 h2 => by
        rw [decide_eq_true_eq, hdesc] at *
        linarith)
      (fun a b => by
        rw [Bool.or_eq_true, decide_eq_true_eq, decide_eq_true_eq, hdesc, hdesc]
        rcases le_total (priceD a) (priceD b) with h | h
        · exact Or.inr (by linarith)
        · exact Or.inl (by linarith)) ps
    refine hs.imp ?_
    intro a b h
    rw [decide_eq_true_eq, hdesc] at h
    linarith
  · have hs := @List.sorted_mergeSort _
      (fun a b => decide (comparatorFor lc "title-asc" a b ≤ 0))
      (fun a b c h1 h2 => by
        rw [decide_eq_true_eq, htasc] at *
        rw [show ((0 : ℚ) = ((0 : Int) : ℚ)) from rfl, hint] at *
        exact htr _ _ _ h1 h2)
      (fun a b => by
        rw [Bool.or_eq_true, decide_eq_true_eq, decide_eq_true_eq, htasc, htasc]
        rw [show ((0 : ℚ) = ((0 : Int) : ℚ)) from rfl, hint, hint]
        exact hto _ _) ps
    refine hs.imp ?_
    intro a b h
    rw [decide_eq_true_eq, htasc, show ((0 : ℚ) = ((0 : Int) : ℚ)) from rfl, hint] at h
    exact h
  · have hs := @List.sorted_mergeSort _
      (fun a b => decide (comparatorFor lc "title-desc" a b ≤ 0))
      (fun a b c h1 h2 => by
        rw [decide_eq_true_eq, htdesc] at *
        rw [show ((0 : ℚ) = ((0 : Int) : ℚ)) from rfl, hint] at *
        exact htr _ _ _ h2 h1)
      (fun a b => by
        rw [Bool.or_eq_true, decide_eq_true_eq, decide_eq_true_eq, htdesc, htdesc]
        rw [show ((0 : ℚ) = ((0 : Int) : ℚ)) from rfl, hint, hint]
        exact (hto _ _).symm)
      ps
    refine hs.imp ?_
    intro a b h
    rw [decide_eq_true_eq, htdesc, show ((0 : ℚ) = ((0 : Int) : ℚ)) from rfl, hint] at h
    exact h
  · apply List.mergeSort_of_sorted
    apply pairwise_of_le_true
    intro a b
    rw [hfeat]
    decide
  · intro hk
    simp only [sortOptions, List.map_cons, List.map_nil, List.mem_cons, List.mem_singleton,
      not_or] at hk
    have hc : ∀ a b, comparatorFor lc key a b = comparatorFor lc "featured" a b := by
      intro a b
      rw [hfeat, comparatorFor, if_neg hk.2.1, if_neg hk.2.2.1, if_neg hk.2.2.2.1,
        if_neg hk.2.2.2.2.1]
    unfold sortProducts
    have : (fun a b => decide (comparatorFor lc key a b ≤ 0))
        = (fun a b => decide (comparatorFor lc "featured" a b ≤ 0)) := by
      funext a b
      rw [hc]
    rw [this]

theorem sort_pipeline_correct_witness :
    (∀ x y : Option Str, zeroLC x y ≤ 0 ∨ zeroLC y x ≤ 0)
    ∧ sortProducts zeroLC "featured" demoProducts = demoProducts :=
  ⟨fun _ _ => Or.inl (le_refl 0),
    (sort_pipeline_correct zeroLC (fun _ _ => Or.inl (le_refl 0))
      (fun _ _ _ _ _ => le_refl 0) demoProducts "weird").2.2.2.2.2.1⟩

/-- Claim C6: every cart drawer mutation addresses a line by its
(handle, size) pair, so any line carrying a different pair — in
particular a line with the same handle but another size, or any line when
the failure-path removal passes only the handle (size null) — is still
present, unchanged, after the mutation. -/
theorem cart_mutations_pair_keyed (st : List CartLine) (slug : Str) (size : Option Str)
    (qty : Int) (l : CartLine) (hl : l ∈ st)
    (hne : ¬ (l.slug = slug ∧ l.size = size)) :
    l ∈ updateQuantity slug size qty st ∧ l ∈ removeItem slug size st := by
  constructor
  · rw [updateQuantity]
    have h := List.mem_map_of_mem
      (fun x : CartLine =>
        if x.slug = slug ∧ x.size = size then (⟨x.slug, x.size, qty⟩ : CartLine) else x) hl
    simpa [hne] using h
  · rw [removeItem, List.mem_filter]
    exact ⟨hl, by simp [hne]⟩

theorem cart_mutations_pair_keyed_witness :
    (demoCartLine ∈ [demoCartLine]
      ∧ ¬ (demoCartLine.slug = "tee".toList ∧ demoCartLine.size = none))
    ∧ demoCartLine ∈ updateQuantity "tee".toList none 3 [demoCartLine]
    ∧ demoCartLine ∈ removeItem "tee".toList none [demoCartLine] :=
  ⟨⟨by decide, by decide⟩,
    cart_mutations_pair_keyed [demoCartLine] "tee".toList none 3 demoCartLine
      (by decide) (by decide)⟩

/-- An activation never removes or replaces a stored collection entry. -/
theorem lookup_activate_mono (st : List (String × List Product)) (h h2 : String)
    (f : Option (List Product)) (ps : List Product)
    (hx : st.lookup h2 = some ps) :
    ((activateCollection st h f).1).lookup h2 = some ps := by
  unfold activateCollection
  by_cases hc : h = "all" ∨ (st.lookup h).isSome = true
  · rw [if_pos hc]
    exact hx
  · rw [if_neg hc]
    cases f with
    | none => exact hx
    | some qs =>
      have hne : (h2 == h) = false := by
        rcases not_or.mp hc with ⟨-, hns⟩
        apply beq_eq_false_iff_ne.mpr
        intro heq
        apply hns
        rw [← heq, hx]
        rfl
      simpa [List.lookup, hne] using hx

/-- A whole session of activations preserves stored collection entries. -/
theorem lookup_runSession_mono (evs : List (String × Option (List Product))) :
    ∀ (st : List (String × List Product)) (h2 : String) (ps : List Product),
    st.lookup h2 = some ps → (runSession st evs).lookup h2 = some ps := by
  induction evs with
  | nil => intro st h2 ps hx; exact hx
  | cons e rest ih =>
    intro st h2 ps hx
    exact ih _ _ _ (lookup_activate_mono st e.1 h2 e.2 ps hx)

/-- Claim C7: once a collection is stored in the in-memory map,
re-activating it issues no fetch and leaves the map unchanged, and no
activation during the session ever removes or replaces a stored entry. -/
theorem collection_cache_stable (st : List (String × List Product)) (h h2 : String)
    (f : Option (List Product)) (ps : List Product)
    (evs : List (String × Option (List Product))) :
    (st.lookup h = some ps → activateCollection st h f = (st, false))
    ∧ (st.lookup h2 = some ps → ((activateCollection st h f).1).lookup h2 = some ps)
    ∧ (st.lookup h2 = some ps → (runSession st evs).lookup h2 = some ps) := by
  refine ⟨?_, fun hx => lookup_activate_mono st h h2 f ps hx,
    fun hx => lookup_runSession_mono evs st h2 ps hx⟩
  intro hx
  unfold activateCollection
  rw [if_pos (Or.inr (by rw [hx]; rfl))]

theorem collection_cache_stable_witness :
    demoCache.lookup "shoes" = some [ghostProduct]
    ∧ activateCollection demoCache "shoes" none = (demoCache, false) :=
  ⟨by decide, (collection_cache_stable demoCache "shoes" "shoes" none [ghostProduct] []).1
    (by decide)⟩

/-- Claim C8: the routing shell maps the URL paths to pages as the route
table states: the home index, the products listing and the shoes family,
the apparel redirect, product detail on a slug, cart, search, the bare
product redirect, and a catch-all redirect of every other path to the
home page. -/
theorem routing_table_correct (segs : List String) :
    routeFor [] = .home
    ∧ routeFor ["products"] = .listing "all"
    ∧ routeFor ["shoes"] = .listing "shoes"
    ∧ routeFor ["shoes", "loafers"] = .listing "loafers"
    ∧ routeFor ["shoes", "boots"] = .listing "boots"
    ∧ routeFor ["shoes", "sneakers"] = .listing "sneakers"
    ∧ routeFor ["shoes", "sandals"] = .listing "sandals"
    ∧ routeFor ["apparel"] = .redirectTo "/products?category=t-shirts"
    ∧ (∀ slug, routeFor ["product", slug] = .productDetail slug)
    ∧ routeFor ["cart"] = .cartView
    ∧ routeFor ["search"] = .searchView
    ∧ routeFor ["product"] = .redirectTo "/"
    ∧ (segs ≠ [] → segs ≠ ["products"] → segs ≠ ["shoes"] → segs ≠ ["shoes", "loafers"] →
        segs ≠ ["shoes", "boots"] → segs ≠ ["shoes", "sneakers"] →
        segs ≠ ["shoes", "sandals"] → segs ≠ ["apparel"] →
        (∀ slug, segs ≠ ["product", slug]) → segs ≠ ["cart"] → segs ≠ ["search"] →
        routeFor segs = .redirectTo "/") := by
  refine ⟨rfl, rfl, rfl, rfl, rfl, rfl, rfl, rfl, fun slug => rfl, rfl, rfl, rfl, ?_⟩
  intro h0 h1 h2 h3 h4 h5 h6 h7 h8 h9 h10
  unfold routeFor
  split
  any_goals simp_all

theorem routing_table_correct_witness :
    (["login"] : List String) ≠ []
    ∧ routeFor ["login"] = .redirectTo "/" :=
  ⟨by decide,
    (routing_table_correct ["login"]).2.2.2.2.2.2.2.2.2.2.2.2 (by decide) (by decide)
      (by decide) (by decide) (by decide) (by decide) (by decide) (by decide)
      (by intro slug h; simp at h) (by decide) (by decide)⟩

/-- Every line the loop builds carries an integer quantity between 1 and
99: non-finite and sub-1 quantities are dropped, the rest are floored and
capped at 99. -/
theorem buildLines_bounds (resolve : Product → Option Str → Option Str)
    (pmap : List (Str × Product)) :
    ∀ items : List CheckItem,
    ∀ l ∈ (buildLines resolve pmap items).2, 1 ≤ l.quantity ∧ l.quantity ≤ 99 := by
  intro items
  induction items with
  | nil => intro l hl; simp [buildLines] at hl
  | cons it rest ih =>
    intro l hl
    rw [buildLines] at hl
    cases hp : it.product with
    | none =>
      simp only [hp] at hl
      exact ih l hl
    | some p0 =>
      simp only [hp] at hl
      cases hm : pmap.lookup it.handle with
      | none => simp only [hm] at hl; exact ih l hl
      | some p =>
        simp only [hm] at hl
        cases hr : resolve p it.size with
        | none => simp only [hr] at hl; exact ih l hl
        | some vid =>
          simp only [hr] at hl
          cases hq : it.quantity with
          | none => simp only [hq] at hl; exact ih l hl
          | some q =>
            simp only [hq] at hl
            by_cases hlt : q < 1
            · rw [if_pos hlt] at hl; exact ih l hl
            · rw [if_neg hlt] at hl
              simp only [List.mem_cons] at hl
              rcases hl with rfl | hl2
              · refine ⟨le_min (Int.le_floor.mpr ?_) (by decide), min_le_right _ _⟩
                exact_mod_cast not_lt.mp hlt
              · exact ih l hl2

/-- The first component of buildLines over a cons either records the new
handle or is unchanged. -/
theorem buildLines_head_cases (resolve : Product → Option Str → Option Str)
    (pmap : List (Str × Product)) (it : CheckItem) (rest : List CheckItem) :
    (buildLines resolve pmap (it :: rest)).1
        = it.handle :: (buildLines resolve pmap rest).1
    ∨ (buildLines resolve pmap (it :: rest)).1 = (buildLines resolve pmap rest).1 := by
  rw [buildLines]
  cases hp : it.product with
  | none => left; simp only [hp]
  | some p0 =>
    cases hm : pmap.lookup it.handle with
    | none => left; simp only [hp, hm]
    | some p =>
      cases hr : resolve p it.size with
      | none => left; simp only [hp, hm, hr]
      | some vid =>
        cases hq : it.quantity with
        | none => right; simp only [hp, hm, hr, hq]
        | some q =>
          by_cases hlt : q < 1
          · right; simp only [hp, hm, hr, hq, if_pos hlt]
          · right; simp only [hp, hm, hr, hq, if_neg hlt]

/-- An item whose product is missing, whose handle is not in the product
map, or whose variant does not resolve forces a non-empty missing list. -/
theorem buildLines_missing (resolve : Product → Option Str → Option Str)
    (pmap : List (Str × Product)) :
    ∀ items : List CheckItem, ∀ it ∈ items,
    (it.product = none
      ∨ pmap.lookup it.handle = none
      ∨ ∃ p, pmap.lookup it.handle = some p ∧ resolve p it.size = none) →
    (buildLines resolve pmap items).1 ≠ [] := by
  intro items
  induction items with
  | nil => intro it hit; simp at hit
  | cons it0 rest ih =>
    intro it hit hbad
    rcases List.mem_cons.mp hit with rfl | hit2
    · rw [buildLines]
      rcases hbad with hp | hm | ⟨p, hm, hr⟩
      · simp only [hp]; simp
      · cases hp2 : it.product with
        | none => simp only [hp2]; simp
        | some p0 => simp only [hp2, hm]; simp
      · cases hp2 : it.product with
        | none => simp only [hp2]; simp
        | some p0 => simp only [hp2, hm, hr]; simp
    · have hne := ih it hit2 hbad
      rcases buildLines_head_cases resolve pmap it0 rest with h | h
      · rw [h]; simp
      · rw [h]; exact hne

/-- Claim C9: whenever handleCheckout reaches cartCreate, every line has
an integer quantity between 1 and 99; and whenever some cart item's
product or variant cannot be resolved, cartCreate is never reached. -/
theorem checkout_lines_safe (resolve : Product → Option Str → Option Str)
    (fetch : Str → Option Product) (items : List CheckItem) :
    (∀ lines, checkoutPlan resolve fetch items = .created lines →
      ∀ l ∈ lines, 1 ≤ l.quantity ∧ l.quantity ≤ 99)
    ∧ (∀ it ∈ items,
        (it.product = none
          ∨ (checkoutMap fetch items).lookup it.handle = none
          ∨ ∃ p, (checkoutMap fetch items).lookup it.handle = some p
              ∧ resolve p it.size = none) →
        ∀ lines, checkoutPlan resolve fetch items ≠ .created lines) := by
  constructor
  · intro lines hq l hl
    unfold checkoutPlan at hq
    by_cases hfe : (!(fetchErrorsOf fetch items).isEmpty) = true
    · rw [if_pos hfe] at hq; exact (CheckoutOutcome.noConfusion hq)
    · rw [if_neg hfe] at hq
      by_cases hm1 : (!(buildLines resolve (checkoutMap fetch items) items).1.isEmpty) = true
      · rw [if_pos hm1] at hq; exact (CheckoutOutcome.noConfusion hq)
      · rw [if_neg hm1] at hq
        by_cases hm2 : (buildLines resolve (checkoutMap fetch items) items).2.isEmpty = true
        · rw [if_pos hm2] at hq; exact (CheckoutOutcome.noConfusion hq)
        · rw [if_neg hm2] at hq
          cases hq
          exact buildLines_bounds resolve (checkoutMap fetch items) items l hl
  · intro it hit hbad lines hq
    unfold checkoutPlan at hq
    have hne := buildLines_missing resolve (checkoutMap fetch items) items it hit hbad
    by_cases hfe : (!(fetchErrorsOf fetch items).isEmpty) = true
    · rw [if_pos hfe] at hq; exact (CheckoutOutcome.noConfusion hq)
    · rw [if_neg hfe] at hq
      rw [if_pos (by simpa [List.isEmpty_iff] using hne)] at hq
      exact (CheckoutOutcome.noConfusion hq)

theorem checkout_lines_safe_witness :
    (badItem ∈ [badItem] ∧ badItem.product = none)
    ∧ ∀ lines, checkoutPlan demoResolve demoFetch [badItem] ≠ .created lines :=
  ⟨⟨by decide, rfl⟩,
    (checkout_lines_safe demoResolve demoFetch [badItem]).2 badItem (by decide) (Or.inl rfl)⟩

/-- Every candidate comes from a product with a truthy title and stores
the normalised form of its label. -/
theorem buildCandidates_mem (fold : Char → List Char) (ps : List Product) (c : Cand)
    (hc : c ∈ buildCandidates fold ps) :
    c.normalized = normalizeSearchText fold c.label
    ∧ c.label ≠ [] ∧ ∃ p ∈ ps, p.title = some c.label := by
  rcases List.mem_filterMap.mp hc with ⟨p, hp, he⟩
  cases ht : p.title with
  | none => rw [ht] at he; exact absurd he (by simp)
  | some t =>
    simp only [ht] at he
    by_cases hte : t.isEmpty = true
    · rw [if_pos hte] at he; exact absurd he (by simp)
    · rw [if_neg hte] at he
      cases he
      exact ⟨rfl, by simpa [List.isEmpty_iff] using hte, p, hp, ht⟩

/-- The output of the suggestion loop is the label image of a sublist of
its input whose normalised forms are distinct, unseen and truthy. -/
theorem suggestLoop_spec (limit : Nat) :
    ∀ (seen : List Str) (count : Nat) (l : List Cand),
    ∃ l2 : List Cand, l2.Sublist l
      ∧ suggestLoop limit seen count l = l2.map Cand.label
      ∧ (l2.map Cand.normalized).Nodup
      ∧ ∀ n ∈ l2.map Cand.normalized, n ∉ seen ∧ n ≠ [] := by
  intro seen count l
  induction l generalizing seen count with
  | nil => exact ⟨[], List.nil_sublist _, rfl, List.nodup_nil, by simp⟩
  | cons c rest ih =>
    by_cases h1 : (c.normalized.isEmpty || seen.contains c.normalized) = true
    · rcases ih seen count with ⟨l2, hsub, heq, hnd, hns⟩
      exact ⟨l2, List.Sublist.cons c hsub,
        by simp only [suggestLoop, if_pos h1]; exact heq, hnd, hns⟩
    · have h1s : ¬ (c.normalized = [] ∨ c.normalized ∈ seen) := by
        simpa [List.isEmpty_iff] using h1
      obtain ⟨hne, hno⟩ := not_or.mp h1s
      by_cases h2 : limit ≤ count + 1
      · refine ⟨[c], List.Sublist.cons₂ c (List.nil_sublist rest),
          by simp only [suggestLoop, if_neg h1, if_pos h2]; rfl, by simp, ?_⟩
        intro n hn
        simp only [List.map_cons, List.map_nil, List.mem_singleton] at hn
        subst hn
        exact ⟨hno, hne⟩
      · rcases ih (c.normalized :: seen) (count + 1) with ⟨l2, hsub, heq, hnd, hns⟩
        refine ⟨c :: l2, List.Sublist.cons₂ c hsub, ?_, ?_, ?_⟩
        · simp only [suggestLoop, if_neg h1, if_neg h2, List.map_cons, heq]
        · rw [List.map_cons, List.nodup_cons]
          refine ⟨fun hmem => ?_, hnd⟩
          exact (hns _ hmem).1 (List.mem_cons_self _ _)
        · intro n hn
          rw [List.map_cons] at hn
          rcases List.mem_cons.mp hn with rfl | hn2
          · exact ⟨hno, hne⟩
          · rcases hns n hn2 with ⟨hn1, hn3⟩
            exact ⟨fun hs => hn1 (List.mem_cons_of_mem _ hs), hn3⟩

/-- The loop never pushes past the limit. -/
theorem suggestLoop_length (limit : Nat) :
    ∀ (seen : List Str) (count : Nat) (l : List Cand), count < limit →
    (suggestLoop limit seen count l).length + count ≤ limit := by
  intro seen count l
  induction l generalizing seen count with
  | nil =>
    intro h
    simp only [suggestLoop, List.length_nil, Nat.zero_add]
    omega
  | cons c rest ih =>
    intro h
    by_cases h1 : (c.normalized.isEmpty || seen.contains c.normalized) = true
    · simp only [suggestLoop, if_pos h1]
      exact ih seen count h
    · by_cases h2 : limit ≤ count + 1
      · simp only [suggestLoop, if_neg h1, if_pos h2, List.length_singleton]
        omega
      · simp only [suggestLoop, if_neg h1, if_neg h2, List.length_cons]
        have := ih (c.normalized :: seen) (count + 1) (by omega)
        omega

/-- Whenever a candidate with a truthy normalised form is in the loop
input, its normalised form was already seen, or appears in the output, or
the loop stopped at the limit. -/
theorem suggestLoop_complete (limit : Nat) (nf : Str → Str) :
    ∀ (seen : List Str) (count : Nat) (l : List Cand) (c : Cand),
    (∀ x ∈ l, x.normalized = nf x.label) →
    c ∈ l → c.normalized ≠ [] →
    c.normalized ∈ seen
    ∨ c.normalized ∈ (suggestLoop limit seen count l).map nf
    ∨ limit ≤ (suggestLoop limit seen count l).length + count := by
  intro seen count l
  induction l generalizing seen count with
  | nil => intro c _ hmem; exact absurd hmem (by simp)
  | cons c0 rest ih =>
    intro c hwf hmem hne
    by_cases h1 : (c0.normalized.isEmpty || seen.contains c0.normalized) = true
    · simp only [suggestLoop, if_pos h1]
      rcases List.mem_cons.mp hmem with rfl | hm2
      · left
        have h1s : c.normalized = [] ∨ c.normalized ∈ seen := by
          simpa [List.isEmpty_iff] using h1
        exact h1s.resolve_left hne
      · exact ih seen count c (fun x hx => hwf x (List.mem_cons_of_mem _ hx)) hm2 hne
    · by_cases h2 : limit ≤ count + 1
      · simp only [suggestLoop, if_neg h1, if_pos h2]
        rcases List.mem_cons.mp hmem with rfl | hm2
        · right; left
          rw [hwf c (List.mem_cons_self _ _)]
          simp
        · right; right
          simp only [List.length_singleton]
          omega
      · simp only [suggestLoop, if_neg h1, if_neg h2]
        rcases List.mem_cons.mp hmem with rfl | hm2
        · right; left
          rw [List.map_cons, hwf c (List.mem_cons_self _ _)]
          exact List.mem_cons_self _ _
        · rcases ih (c0.normalized :: seen) (count + 1) c
            (fun x hx => hwf x (List.mem_cons_of_mem _ hx)) hm2 hne with hs | hm | hl
          · rcases List.mem_cons.mp hs with heq | hs2
            · right; left
              rw [List.map_cons, ← hwf c0 (List.mem_cons_self _ _), ← heq]
              exact List.mem_cons_self _ _
            · left; exact hs2
          · right; left
            rw [List.map_cons]
            exact List.mem_cons_of_mem _ hm
          · right; right
            rw [List.length_cons]
            omega

/-- Every element of the scored pipeline is a matching candidate. -/
theorem suggestPipeline_mem (fold : Char → List Char) (ps : List Product) (q : Str)
    (x : Cand) (hx : x ∈ suggestPipeline fold ps q) :
    x ∈ (buildCandidates fold ps).filter (fun c =>
      if (tokensOf fold q).isEmpty then true
      else (tokensOf fold q).all (fun t => hasSub t c.normalized)) := by
  rcases List.mem_map.mp hx with ⟨s, hs, rfl⟩
  rw [sortScored] at hs
  have hs2 := (List.mergeSort_perm _ _).mem_iff.mp hs
  rcases List.mem_map.mp hs2 with ⟨c, hc, rfl⟩
  exact hc

/-- Claim C2: for a query with at least one token and a positive limit,
buildSuggestions returns at most limit titles; every returned title is
the truthy title of some product and its normalised form contains every
query token; the normalised forms of the returned titles are pairwise
distinct; the titles are ordered by descending weighted score (100 for an
exact match of the whole normalised query plus 50 for a prefix match
plus 20 for a substring match) with ties broken by ascending title
length; and every matching candidate title appears (up to its normalised
form) unless the output was cut at the limit. -/
theorem suggestion_ranking (fold : Char → List Char) (ps : List Product) (q : Str)
    (limit : Nat) (htok : tokensOf fold q ≠ []) (hlim : 1 ≤ limit) :
    (buildSuggestions fold ps q limit).length ≤ limit
    ∧ (∀ lbl ∈ buildSuggestions fold ps q limit,
        (∃ p ∈ ps, p.title = some lbl) ∧ lbl ≠ []
        ∧ ∀ t ∈ tokensOf fold q, hasSub t (normalizeSearchText fold lbl) = true)
    ∧ ((buildSuggestions fold ps q limit).map (normalizeSearchText fold)).Nodup
    ∧ (buildSuggestions fold ps q limit).Pairwise (fun l1 l2 =>
        scoreOf (normalizeSearchText fold q) (normalizeSearchText fold l2)
            < scoreOf (normalizeSearchText fold q) (normalizeSearchText fold l1)
        ∨ (scoreOf (normalizeSearchText fold q) (normalizeSearchText fold l1)
              = scoreOf (normalizeSearchText fold q) (normalizeSearchText fold l2)
            ∧ l1.length ≤ l2.length))
    ∧ (∀ p ∈ ps, ∀ ttl, p.title = some ttl → ttl ≠ [] →
        (∀ t ∈ tokensOf fold q, hasSub t (normalizeSearchText fold ttl) = true) →
        normalizeSearchText fold ttl
            ∈ (buildSuggestions fold ps q limit).map (normalizeSearchText fold)
          ∨ (buildSuggestions fold ps q limit).length = limit) := by
  have hqn : normalizeSearchText fold q ≠ [] := by
    intro h
    apply htok
    simp only [tokensOf, h]
    rfl
  have hq2 : ¬ ((normalizeSearchText fold q).isEmpty = true) := by
    simpa [List.isEmpty_iff] using hqn
  have htoks : ¬ ((tokensOf fold q).isEmpty = true) := by
    simpa [List.isEmpty_iff] using htok
  have hout : buildSuggestions fold ps q limit
      = suggestLoop limit [] 0 (suggestPipeline fold ps q) := by
    rw [buildSuggestions, if_neg hq2]
  have hmap_mem := suggestPipeline_mem fold ps q
  have hwf : ∀ x ∈ suggestPipeline fold ps q,
      x.normalized = normalizeSearchText fold x.label := fun x hx =>
    (buildCandidates_mem fold ps x (List.mem_filter.mp (hmap_mem x hx)).1).1
  obtain ⟨l2, hsub, heq, hnd, hns⟩ :=
    suggestLoop_spec limit [] 0 (suggestPipeline fold ps q)
  have hlen : (suggestLoop limit [] 0 (suggestPipeline fold ps q)).length + 0 ≤ limit :=
    suggestLoop_length limit [] 0 (suggestPipeline fold ps q) (by omega)
  have hsorted := @List.sorted_mergeSort _
    (fun a b : SCand =>
      decide (b.score < a.score ∨ (a.score = b.score ∧ a.label.length ≤ b.label.length)))
    (fun a b c h1 h2 => by
      simp only [decide_eq_true_eq] at h1 h2 ⊢
      omega)
    (fun a b => by
      simp only [Bool.or_eq_true, decide_eq_true_eq]
      omega)
    (scoreCands (normalizeSearchText fold q)
      ((buildCandidates fold ps).filter (fun c =>
        if (tokensOf fold q).isEmpty then true
        else (tokensOf fold q).all (fun t => hasSub t c.normalized))))
  have hscore : ∀ s ∈ sortScored (scoreCands (normalizeSearchText fold q)
      ((buildCandidates fold ps).filter (fun c =>
        if (tokensOf fold q).isEmpty then true
        else (tokensOf fold q).all (fun t => hasSub t c.normalized)))),
      s.score = scoreOf (normalizeSearchText fold q) s.normalized
      ∧ s.normalized = normalizeSearchText fold s.label := by
    intro s hs
    rw [sortScored] at hs
    have hs2 := (List.mergeSort_perm _ _).mem_iff.mp hs
    rcases List.mem_map.mp hs2 with ⟨c, hc, rfl⟩
    exact ⟨rfl, (buildCandidates_mem fold ps c (List.mem_filter.mp hc).1).1⟩
  have hsorted2 : (sortScored (scoreCands (normalizeSearchText fold q)
      ((buildCandidates fold ps).filter (fun c =>
        if (tokensOf fold q).isEmpty then true
        else (tokensOf fold q).all (fun t => hasSub t c.normalized))))).Pairwise
      (fun s1 s2 : SCand =>
        scoreOf (normalizeSearchText fold q) (normalizeSearchText fold s2.label)
            < scoreOf (normalizeSearchText fold q) (normalizeSearchText fold s1.label)
        ∨ (scoreOf (normalizeSearchText fold q) (normalizeSearchText fold s1.label)
              = scoreOf (normalizeSearchText fold q) (normalizeSearchText fold s2.label)
            ∧ s1.label.length ≤ s2.label.length)) := by
    refine List.Pairwise.imp_of_mem ?_ hsorted
    intro a b ha hb hr
    rw [decide_eq_true_eq] at hr
    obtain ⟨ha1, ha2⟩ := hscore a ha
    obtain ⟨hb1, hb2⟩ := hscore b hb
    rw [← ha2, ← hb2, ← ha1, ← hb1]
    exact hr
  have hmapped : (suggestPipeline fold ps q).Pairwise (fun c1 c2 : Cand =>
      scoreOf (normalizeSearchText fold q) (normalizeSearchText fold c2.label)
          < scoreOf (normalizeSearchText fold q) (normalizeSearchText fold c1.label)
      ∨ (scoreOf (normalizeSearchText fold q) (normalizeSearchText fold c1.label)
            = scoreOf (normalizeSearchText fold q) (normalizeSearchText fold c2.label)
          ∧ c1.label.length ≤ c2.label.length)) :=
    List.pairwise_map.mpr hsorted2
  refine ⟨?_, ?_, ?_, ?_, ?_⟩
  · rw [hout]
    omega
  · intro lbl hl
    rw [hout, heq] at hl
    rcases List.mem_map.mp hl with ⟨x, hx2, rfl⟩
    have hxm := hsub.subset hx2
    obtain ⟨hxc, hxpred⟩ := List.mem_filter.mp (hmap_mem x hxm)
    obtain ⟨hxn, hxlbl, p, hp, hptitle⟩ := buildCandidates_mem fold ps x hxc
    refine ⟨⟨p, hp, hptitle⟩, hxlbl, ?_⟩
    intro t ht
    rw [if_neg htoks] at hxpred
    have := List.all_eq_true.mp hxpred t ht
    rw [← hxn]
    exact this
  · rw [hout, heq, List.map_map]
    have hcong : l2.map (normalizeSearchText fold ∘ Cand.label) = l2.map Cand.normalized :=
      List.map_congr_left (fun x hx => (hwf x (hsub.subset hx)).symm)
    rw [hcong]
    exact hnd
  · rw [hout, heq]
    exact List.pairwise_map.mpr (List.Pairwise.sublist hsub hmapped)
  · intro p hp ttl hptitle httl hmatch
    have hcc : (⟨ttl, normalizeSearchText fold ttl⟩ : Cand) ∈ buildCandidates fold ps := by
      apply List.mem_filterMap.mpr
      refine ⟨p, hp, ?_⟩
      rw [hptitle]
      simp [List.isEmpty_iff, httl]
    have hcm : (⟨ttl, normalizeSearchText fold ttl⟩ : Cand)
        ∈ (buildCandidates fold ps).filter (fun c =>
          if (tokensOf fold q).isEmpty then true
          else (tokensOf fold q).all (fun t => hasSub t c.normalized)) := by
      refine List.mem_filter.mpr ⟨hcc, ?_⟩
      rw [if_neg htoks]
      exact List.all_eq_true.mpr hmatch
    have hsc := List.mem_map_of_mem
      (fun c : Cand => (⟨c.label, c.normalized,
        scoreOf (normalizeSearchText fold q) c.normalized⟩ : SCand)) hcm
    have hsm : (⟨ttl, normalizeSearchText fold ttl,
        scoreOf (normalizeSearchText fold q) (normalizeSearchText fold ttl)⟩ : SCand)
        ∈ sortScored (scoreCands (normalizeSearchText fold q)
          ((buildCandidates fold ps).filter (fun c =>
            if (tokensOf fold q).isEmpty then true
            else (tokensOf fold q).all (fun t => hasSub t c.normalized)))) := by
      rw [sortScored]
      exact (List.mergeSort_perm _ _).mem_iff.mpr hsc
    have hmm : (⟨ttl, normalizeSearchText fold ttl⟩ : Cand) ∈ suggestPipeline fold ps q :=
      List.mem_map_of_mem (fun s : SCand => (⟨s.label, s.normalized⟩ : Cand)) hsm
    have hne2 : normalizeSearchText fold ttl ≠ [] := by
      obtain ⟨t0, ht0⟩ := List.exists_mem_of_ne_nil _ htok
      intro hnil
      have hh := hmatch t0 ht0
      rw [hnil] at hh
      have ht0e : (!t0.isEmpty) = true := (List.mem_filter.mp ht0).2
      simp only [hasSub] at hh
      rw [hh] at ht0e
      exact absurd ht0e (by simp)
    rcases suggestLoop_complete limit (normalizeSearchText fold) [] 0
        (suggestPipeline fold ps q) ⟨ttl, normalizeSearchText fold ttl⟩
        hwf hmm hne2 with habs | hin | hlen2
    · exact absurd habs (by simp)
    · left
      rw [hout]
      exact hin
    · right
      rw [hout]
      omega

theorem suggestion_ranking_witness :
    (tokensOf demoFold demoQuery ≠ [] ∧ 1 ≤ 6)
    ∧ (buildSuggestions demoFold demoProducts demoQuery 6).length ≤ 6 :=
  ⟨⟨by decide, by decide⟩,
    (suggestion_ranking demoFold demoProducts demoQuery 6 (by decide) (by decide)).1⟩
